import Mathlib

/-!
Verification of the constrained pivoted-QR sensor ranker
(`pysensors/optimizers/_gqr.py`, class `GQR` and helper `f_region`).

The numerical code operates on dense numpy float arrays; we embed it over an
arbitrary linearly ordered field `K` together with an explicit square-root
function `sqrt : K → K` mirroring `np.sqrt`.  The program itself is the
instance `K := ℝ`, `sqrt := Real.sqrt` (float arithmetic idealized as real
arithmetic); theorems about concrete runs are stated at that instance.
Matrices are lists of rows, exactly as numpy addresses them
(`R[i][j]` = row `i`, column `j`).
-/

set_option autoImplicit false

namespace GQRSpec

variable {K : Type} [LinearOrderedField K]

/-- Numpy `np.sign` on real scalars: `-1`, `0` or `1`. -/
def npSign (x : K) : K := if x < 0 then -1 else if x = 0 then 0 else 1

/-- First index attaining the maximum, auxiliary loop: `i` is the index of the
head of the remaining list, `best`/`bv` the best index and value so far.  The
best is replaced only on a strictly larger value, which matches `np.argmax`'s
first-occurrence tie-breaking. -/
def argmaxAux : List K → ℕ → ℕ → K → ℕ
  | [], _, best, _ => best
  | x :: xs, i, best, bv => if bv < x then argmaxAux xs (i + 1) i x else argmaxAux xs (i + 1) best bv

/-- Numpy `np.argmax`: index of the first occurrence of the maximum value
(`0` on the empty list, which the algorithm never queries). -/
def argmaxIdx : List K → ℕ
  | [] => 0
  | x :: xs => argmaxAux xs 1 0 x

/-- Sum of squared absolute values of column `c` over the rows `j, j+1, …` of
`R`: one entry of `np.sum(np.abs(r) ** 2, axis=0)` for `r = R[j:, j:]`
(line 85 of `_gqr.py`). -/
def colSq (R : List (List K)) (j c : ℕ) : K :=
  ((R.drop j).map fun row => |row.getD c 0| ^ 2).sum

/-- Column `c` of `R` restricted to the rows `j, j+1, …`: the slice
`R[j:, c]`. -/
def colFrom (R : List (List K)) (j c : ℕ) : List K :=
  (R.drop j).map fun row => row.getD c 0

/-- The candidate vector `dlens` of line 85: Euclidean norm of each column of
the trailing submatrix `R[j:, j:]` of an `nf`-column working matrix. -/
def dlensOf (sqrt : K → K) (R : List (List K)) (nf j : ℕ) : List K :=
  (List.range (nf - j)).map fun c => sqrt (colSq R j (j + c))

/-- The mask applier `f_region` (lines 120-152 of `_gqr.py`).  While the
constrained quota is being filled (`j < const_sensors`) it zeroes every
candidate whose original column index (read off the trailing slice of the
permutation) is *not* in `lin_idx`; afterwards it zeroes every candidate whose
index *is* in `lin_idx`. -/
def f_region (lin_idx : List ℕ) (dlens : List K) (piv : List ℕ) (j const_sensors : ℕ) : List K :=
  if j < const_sensors then
    List.zipWith (fun d q => if q ∈ lin_idx then d else 0) dlens (piv.drop j)
  else
    List.zipWith (fun d q => if q ∈ lin_idx then 0 else d) dlens (piv.drop j)

/-- Dot product of the reflector `u` with column `c` of the trailing rows of
`R`: one entry of `np.dot(u, R[j:, j:])` (line 109). -/
def dotCol (R : List (List K)) (j : ℕ) (u : List K) (c : ℕ) : K :=
  (List.zipWith (fun a b => a * b) u (colFrom R j c)).sum

/-- Rank-1 reflector update `R[j:, j:] -= np.outer(u, np.dot(u, R[j:, j:]))`
(line 109), leaving rows and columns before `j` untouched. -/
def applyReflector (R : List (List K)) (j : ℕ) (u : List K) : List (List K) :=
  (List.range R.length).map fun ri =>
    if ri < j then R.getD ri []
    else (List.range (R.getD ri []).length).map fun ci =>
      if ci < j then (R.getD ri []).getD ci 0
      else (R.getD ri []).getD ci 0 - u.getD (ri - j) 0 * dotCol R j u ci

/-- Explicit sub-diagonal zeroing `R[j + 1 :, j] = 0` (line 110). -/
def zeroBelow (R : List (List K)) (j : ℕ) : List (List K) :=
  (List.range R.length).map fun ri =>
    if j < ri then (R.getD ri []).set j 0 else R.getD ri []

/-- Column swap `R[:, [a, b]] = R[:, [b, a]]` (line 106); numpy evaluates the
fancy-indexed right-hand side into a copy first, so both reads see the
original row. -/
def swapCols (R : List (List K)) (a b : ℕ) : List (List K) :=
  R.map fun row => (row.set a (row.getD b 0)).set b (row.getD a 0)

/-- Single in-place entry write `R[i][j] = v` (models the view write
`u[0] = np.sqrt(2)` of line 99 landing in the working matrix). -/
def writeEntry (R : List (List K)) (i j : ℕ) (v : K) : List (List K) :=
  R.set i ((R.getD i []).set j v)

/-- Permutation swap `p[[a, b]] = p[[b, a]]` (line 103); both reads see the
original list. -/
def swapList (p : List ℕ) (a b : ℕ) : List ℕ :=
  (p.set a (p.getD b 0)).set b (p.getD a 0)

/-- One ranking run's working state: the caller's basis matrix (never written
by the loop — it is copied into `R` at line 77), the working factor matrix `R`
and the permutation `p`. -/
structure GQRState (K : Type) where
  basis : List (List K)
  R : List (List K)
  p : List ℕ

/-- Conjugate transpose of the basis matrix (line 77,
`basis_matrix.conj().T.copy()`); entries of our model are real-valued, so
conjugation is the identity.  The result has `n_samples` rows and
`n_features` columns. -/
def transposeConj (basis : List (List K)) : List (List K) :=
  (List.range (basis.headD []).length).map fun i =>
    (List.range basis.length).map fun t => (basis.getD t []).getD i 0

/-- One iteration of the `GQR.fit` loop (lines 82-110) on an `nf`-column
working matrix, returning the next state together with the reflector `u`
actually applied at line 109.  In the `dlen > 0` branch `u` is a fresh array
computed from the pre-swap pivot column; in the degenerate branch `u` is a
numpy *view* of the pivot column, so the write `u[0] = np.sqrt(2)` lands in
the working matrix before the column swap, and `u`'s value at line 109 is
read from the post-swap matrix. -/
def gqrStepFull (sqrt : K → K) (cIdx : List ℕ) (cs nf j : ℕ) (s : GQRState K) :
    GQRState K × List K :=
  let dl := dlensOf sqrt s.R nf j
  let dlu := f_region cIdx dl s.p j cs
  let i0 := argmaxIdx dlu
  let dlen := dlu.getD i0 0
  let ipiv := i0 + j
  if 0 < dlen then
    let u1 := (colFrom s.R j ipiv).map fun x => x / dlen
    let h0 := u1.getD 0 0
    let h1 := h0 + npSign h0 + (if h0 = 0 then 1 else 0)
    let u := (u1.set 0 h1).map fun x => x / sqrt |h1|
    let R2 := swapCols s.R j ipiv
    ⟨⟨s.basis, zeroBelow (applyReflector R2 j u) j, swapList s.p j ipiv⟩, u⟩
  else
    let R1 := writeEntry s.R j ipiv (sqrt 2)
    let R2 := swapCols R1 j ipiv
    let u := colFrom R2 j ipiv
    ⟨⟨s.basis, zeroBelow (applyReflector R2 j u) j, swapList s.p j ipiv⟩, u⟩

/-- The state component of one loop iteration. -/
def gqrStep (sqrt : K → K) (cIdx : List ℕ) (cs nf j : ℕ) (s : GQRState K) : GQRState K :=
  (gqrStepFull sqrt cIdx cs nf j s).1

/-- State after `j` iterations of the `GQR.fit` loop, starting from
`R = basis.conj().T.copy()` and `p = np.arange(n_features)` (lines 77-78). -/
def gqrState (sqrt : K → K) (cIdx : List ℕ) (cs : ℕ) (basis : List (List K)) : ℕ → GQRState K
  | 0 => ⟨basis, transposeConj basis, List.range basis.length⟩
  | j + 1 => gqrStep sqrt cIdx cs basis.length j (gqrState sqrt cIdx cs basis j)

/-- The permutation `pivots_` produced by the loop of `GQR.fit`, which runs
`k = min(n_samples, n_features)` iterations (line 79). -/
def gqrPivots (sqrt : K → K) (cIdx : List ℕ) (cs : ℕ) (basis : List (List K)) : List ℕ :=
  (gqrState sqrt cIdx cs basis (min (basis.headD []).length basis.length)).p

/-- The unmasked candidate-norm vector `dlens` computed at iteration `j`. -/
def gqrDlensAt (sqrt : K → K) (cIdx : List ℕ) (cs : ℕ) (basis : List (List K)) (j : ℕ) : List K :=
  dlensOf sqrt (gqrState sqrt cIdx cs basis j).R basis.length j

/-- The masked candidate vector `dlens_updated` computed at iteration `j`
(line 86). -/
def gqrMaskedAt (sqrt : K → K) (cIdx : List ℕ) (cs : ℕ) (basis : List (List K)) (j : ℕ) : List K :=
  f_region cIdx (gqrDlensAt sqrt cIdx cs basis j) (gqrState sqrt cIdx cs basis j).p j cs

/-- The pivot index `i_piv = np.argmax(dlens_updated)` chosen at iteration `j`
(line 89), relative to the trailing slice. -/
def gqrPivAt (sqrt : K → K) (cIdx : List ℕ) (cs : ℕ) (basis : List (List K)) (j : ℕ) : ℕ :=
  argmaxIdx (gqrMaskedAt sqrt cIdx cs basis j)

/-- The selected masked norm `dlen = dlens_updated[i_piv]` at iteration `j`
(line 91). -/
def gqrSelNormAt (sqrt : K → K) (cIdx : List ℕ) (cs : ℕ) (basis : List (List K)) (j : ℕ) : K :=
  (gqrMaskedAt sqrt cIdx cs basis j).getD (gqrPivAt sqrt cIdx cs basis j) 0

/-- The reflector `u` actually applied at line 109 during iteration `j`. -/
def gqrReflectorAt (sqrt : K → K) (cIdx : List ℕ) (cs : ℕ) (basis : List (List K)) (j : ℕ) :
    List K :=
  (gqrStepFull sqrt cIdx cs basis.length j (gqrState sqrt cIdx cs basis j)).2

/-- Errors surfaced by `GQR.fit`.  `ioErrorBudget` is the `IOError` of
line 71; `ioErrorSamples` would be the `IOError` of line 73; but building that
message calls `format(n_sensors, …)` and `n_sensors` is not bound in the
function (nor at module scope when the module is imported rather than run as
a script), so Python raises `NameError` while evaluating the message —
`nameErrorNSensors`. -/
inductive GQRErr : Type
  | ioErrorBudget : GQRErr
  | ioErrorSamples : GQRErr
  | nameErrorNSensors : GQRErr
deriving DecidableEq, Repr

/-- Python names free in the argument of the second check's `format` call
(line 74): `n_sensors`, `n_samples` and `self`. -/
def check2MessageFreeNames : List String := ["n_sensors", "n_samples", "self"]

/-- Names visible inside `GQR.fit` at the point of the second check when the
module is imported: the locals bound on lines 48-67 plus the module-level
bindings (the `if __name__ == '__main__'` block, where `n_sensors` is
assigned, has not run). -/
def gqrFitScopeAtCheck2 : List String :=
  ["self", "basis_matrix", "n_features", "n_samples", "max_const_sensors",
   "np", "QR", "plt", "datasets", "metrics", "make_axes_locatable", "ps",
   "GQR", "f_region", "getConstraindSensorsIndices", "boxConstraints",
   "functionalConstraint"]

/-- Whether evaluating the second check's message raises `NameError`: true
iff some free name of the `format` call is unbound in scope. -/
def check2UnboundName : Bool :=
  check2MessageFreeNames.any fun s => !(gqrFitScopeAtCheck2.contains s)

/-- The method `GQR.fit` (lines 48-115): the two feasibility checks (Python
integer arithmetic, hence over `ℤ`), then the pivoted-QR loop.  On success it
stores and returns the permutation `pivots_`. -/
def GQRfit (sqrt : K → K) (cIdx : List ℕ) (nSensors cs : ℕ) (basis : List (List K)) :
    Except GQRErr (List ℕ) :=
  let nf := basis.length
  let nsamp := (basis.headD []).length
  let maxc := cIdx.length
  if (nSensors : ℤ) > (nf : ℤ) - (maxc : ℤ) + (cs : ℤ) then .error .ioErrorBudget
  else if (nSensors : ℤ) > (nsamp : ℤ) + (cs : ℤ) then
    .error (if check2UnboundName then .nameErrorNSensors else .ioErrorSamples)
  else .ok (gqrPivots sqrt cIdx cs basis)

/-- Modelled from the spec: the unconstrained baseline pivoted-QR step (the
`QR` optimizer of `pysensors/optimizers/_qr.py`, which is not part of the
sources under verification).  Per §2, §4.1 and §8 of the spec it is the same
greedy column-pivoted triangularization as the ranker with the single
deviation removed: the candidate vector is used unmasked. -/
def qrStepFull (sqrt : K → K) (nf j : ℕ) (s : GQRState K) : GQRState K × List K :=
  let dl := dlensOf sqrt s.R nf j
  let i0 := argmaxIdx dl
  let dlen := dl.getD i0 0
  let ipiv := i0 + j
  if 0 < dlen then
    let u1 := (colFrom s.R j ipiv).map fun x => x / dlen
    let h0 := u1.getD 0 0
    let h1 := h0 + npSign h0 + (if h0 = 0 then 1 else 0)
    let u := (u1.set 0 h1).map fun x => x / sqrt |h1|
    let R2 := swapCols s.R j ipiv
    ⟨⟨s.basis, zeroBelow (applyReflector R2 j u) j, swapList s.p j ipiv⟩, u⟩
  else
    let R1 := writeEntry s.R j ipiv (sqrt 2)
    let R2 := swapCols R1 j ipiv
    let u := colFrom R2 j ipiv
    ⟨⟨s.basis, zeroBelow (applyReflector R2 j u) j, swapList s.p j ipiv⟩, u⟩

/-- Modelled from the spec: state after `j` iterations of the baseline
pivoted QR. -/
def qrState (sqrt : K → K) (basis : List (List K)) : ℕ → GQRState K
  | 0 => ⟨basis, transposeConj basis, List.range basis.length⟩
  | j + 1 => (qrStepFull sqrt basis.length j (qrState sqrt basis j)).1

/-- Modelled from the spec: the baseline pivoted-QR ranking of a basis
matrix. -/
def qrPivots (sqrt : K → K) (basis : List (List K)) : List ℕ :=
  (qrState sqrt basis (min (basis.headD []).length basis.length)).p

/-! ### Generic list lemmas -/

theorem getD_set_eq' {α : Type} (l : List α) (n : ℕ) (v d : α) (h : n < l.length) :
    (l.set n v).getD n d = v := by
  rw [List.getD_eq_getElem?_getD, List.getElem?_set, if_pos rfl, if_pos h, Option.getD_some]

theorem getD_set_ne' {α : Type} (l : List α) (m n : ℕ) (v d : α) (h : n ≠ m) :
    (l.set n v).getD m d = l.getD m d := by
  rw [List.getD_eq_getElem?_getD, List.getElem?_set, if_neg h, ← List.getD_eq_getElem?_getD]

theorem set_getD_self' {α : Type} (l : List α) (n : ℕ) (d : α) :
    l.set n (l.getD n d) = l := by
  apply List.ext_getElem?
  intro m
  rw [List.getElem?_set]
  by_cases hnm : n = m
  · subst hnm
    by_cases hl : n < l.length
    · rw [if_pos rfl, if_pos hl, List.getD_eq_getElem?_getD, List.getElem?_eq_getElem hl,
        Option.getD_some]
    · rw [if_pos rfl, if_neg hl, eq_comm, List.getElem?_eq_none_iff]
      omega
  · rw [if_neg hnm]

theorem getD_drop' {α : Type} (l : List α) (j i : ℕ) (d : α) :
    (l.drop j).getD i d = l.getD (j + i) d := by
  rw [List.getD_eq_getElem?_getD, List.getD_eq_getElem?_getD, List.getElem?_drop]

theorem getD_zipWith' {α β γ : Type} (f : α → β → γ) (l₁ : List α) (l₂ : List β)
    (i : ℕ) (d₁ : α) (d₂ : β) (d : γ) (h₁ : i < l₁.length) (h₂ : i < l₂.length) :
    (List.zipWith f l₁ l₂).getD i d = f (l₁.getD i d₁) (l₂.getD i d₂) := by
  have hz : i < (List.zipWith f l₁ l₂).length := by
    rw [List.length_zipWith]; exact lt_min h₁ h₂
  rw [List.getD_eq_getElem?_getD, List.getElem?_eq_getElem hz, Option.getD_some,
    List.getElem_zipWith, List.getD_eq_getElem?_getD, List.getElem?_eq_getElem h₁,
    List.getD_eq_getElem?_getD, List.getElem?_eq_getElem h₂, Option.getD_some, Option.getD_some]

theorem zipWith_fst_take {α β : Type} (l₁ : List α) (l₂ : List β) :
    List.zipWith (fun d _ => d) l₁ l₂ = l₁.take l₂.length := by
  induction l₁ generalizing l₂ with
  | nil => simp
  | cons x xs ih =>
    cases l₂ with
    | nil => simp
    | cons y ys => simp [ih]

theorem getD_zero_of_all_zero (l : List K) (h : ∀ x ∈ l, x = 0) (n : ℕ) :
    l.getD n 0 = 0 := by
  rw [List.getD_eq_getElem?_getD]
  cases hg : l[n]? with
  | none => rfl
  | some x =>
    have hx : x ∈ l := List.getElem?_mem hg
    simp [h x hx]

/-! ### Swap lemmas -/

theorem swapList_length (p : List ℕ) (a b : ℕ) : (swapList p a b).length = p.length := by
  simp [swapList]

theorem swapList_self (p : List ℕ) (a : ℕ) : swapList p a a = p := by
  rw [swapList, List.set_set, set_getD_self']

theorem swapList_getD_left (p : List ℕ) (a b : ℕ) (h : a < p.length) :
    (swapList p a b).getD a 0 = p.getD b 0 := by
  by_cases hab : a = b
  · subst hab; rw [swapList_self]
  · rw [swapList, getD_set_ne' _ _ _ _ _ (Ne.symm hab), getD_set_eq' _ _ _ _ h]

theorem swapList_getD_other (p : List ℕ) (a b t : ℕ) (ha : t ≠ a) (hb : t ≠ b) :
    (swapList p a b).getD t 0 = p.getD t 0 := by
  rw [swapList, getD_set_ne' _ _ _ _ _ (Ne.symm hb), getD_set_ne' _ _ _ _ _ (Ne.symm ha)]

theorem cons_set_perm {α : Type} :
    ∀ (xs : List α) (b : ℕ) (v d : α), b < xs.length →
      (xs.getD b d :: xs.set b v).Perm (v :: xs)
  | [], b, v, d, h => by simp at h
  | y :: ys, 0, v, d, _ => by
      simpa using List.Perm.swap v y ys
  | y :: ys, b + 1, v, d, h => by
      have hb : b < ys.length := by simpa using h
      have h1 : (ys.getD b d :: y :: ys.set b v).Perm (y :: ys.getD b d :: ys.set b v) :=
        List.Perm.swap y (ys.getD b d) (ys.set b v)
      have h2 : (y :: ys.getD b d :: ys.set b v).Perm (y :: v :: ys) :=
        List.Perm.cons y (cons_set_perm ys b v d hb)
      have h3 : (y :: v :: ys).Perm (v :: y :: ys) := List.Perm.swap v y ys
      simpa using (h1.trans h2).trans h3

theorem swapList_comm (p : List ℕ) (a b : ℕ) (hab : a ≠ b) :
    swapList p a b = swapList p b a := by
  rw [swapList, swapList, List.set_comm _ _ _ hab]

theorem swapList_perm_of_le : ∀ (p : List ℕ) (a b : ℕ), a ≤ b → a < p.length →
    b < p.length → (swapList p a b).Perm p
  | [], _, _, _, ha, _ => by simp at ha
  | x :: xs, 0, 0, _, _, _ => by rw [swapList_self]
  | x :: xs, 0, b + 1, _, _, hb => by
      have hb' : b < xs.length := by simpa using hb
      have he : swapList (x :: xs) 0 (b + 1) = xs.getD b 0 :: xs.set b x := by
        simp [swapList]
      rw [he]
      exact cons_set_perm xs b x 0 hb'
  | x :: xs, a + 1, 0, hab, _, _ => by omega
  | x :: xs, a + 1, b + 1, hab, ha, hb => by
      have he : swapList (x :: xs) (a + 1) (b + 1) = x :: swapList xs a b := by
        simp [swapList]
      rw [he]
      exact List.Perm.cons x
        (swapList_perm_of_le xs a b (by omega) (by simpa using ha) (by simpa using hb))

theorem swapList_perm (p : List ℕ) (a b : ℕ) (ha : a < p.length) (hb : b < p.length) :
    (swapList p a b).Perm p := by
  rcases le_total a b with h | h
  · exact swapList_perm_of_le p a b h ha hb
  · rcases eq_or_lt_of_le h with he | hlt
    · subst he; rw [swapList_self]
    · rw [swapList_comm p a b (by omega)]
      exact swapList_perm_of_le p b a h hb ha

/-! ### Specification of `argmaxIdx` -/

theorem argmaxAux_spec (l : List K) : ∀ (i b : ℕ) (v : K),
    (argmaxAux l i b v = b ∧ ∀ t, t < l.length → l.getD t 0 ≤ v) ∨
    (∃ s, s < l.length ∧ argmaxAux l i b v = i + s ∧ v < l.getD s 0 ∧
      (∀ t, t < l.length → l.getD t 0 ≤ l.getD s 0) ∧
      (∀ t, t < s → l.getD t 0 < l.getD s 0)) := by
  induction l with
  | nil => intro i b v; left; exact ⟨rfl, fun t ht => by simp at ht⟩
  | cons x xs ih =>
    intro i b v
    by_cases hvx : v < x
    · rcases ih (i + 1) i x with ⟨he, hall⟩ | ⟨s, hs, he, hv, hmax, hfirst⟩
      · right
        refine ⟨0, by simp, ?_, by simpa using hvx, ?_, fun t ht => by omega⟩
        · simpa [argmaxAux, if_pos hvx] using he
        · intro t ht
          cases t with
          | zero => simp
          | succ t => simpa using hall t (by simpa using ht)
      · right
        refine ⟨s + 1, by simpa using hs, ?_, ?_, ?_, ?_⟩
        · rw [show argmaxAux (x :: xs) i b v = argmaxAux xs (i + 1) i x from by
            simp [argmaxAux, if_pos hvx], he]
          omega
        · simpa using hvx.trans hv
        · intro t ht
          cases t with
          | zero => simpa using (le_of_lt hv)
          | succ t => simpa using hmax t (by simpa using ht)
        · intro t ht
          cases t with
          | zero => simpa using hv
          | succ t => simpa using hfirst t (by omega)
    · rcases ih (i + 1) b v with ⟨he, hall⟩ | ⟨s, hs, he, hv, hmax, hfirst⟩
      · left
        constructor
        · simpa [argmaxAux, if_neg hvx] using he
        · intro t ht
          cases t with
          | zero => simpa using le_of_not_lt hvx
          | succ t => simpa using hall t (by simpa using ht)
      · right
        refine ⟨s + 1, by simpa using hs, ?_, ?_, ?_, ?_⟩
        · rw [show argmaxAux (x :: xs) i b v = argmaxAux xs (i + 1) b v from by
            simp [argmaxAux, if_neg hvx], he]
          omega
        · simpa using hv
        · intro t ht
          cases t with
          | zero => simpa using le_of_lt (lt_of_le_of_lt (le_of_not_lt hvx) hv)
          | succ t => simpa using hmax t (by simpa using ht)
        · intro t ht
          cases t with
          | zero => simpa using lt_of_le_of_lt (le_of_not_lt hvx) hv
          | succ t => simpa using hfirst t (by omega)

theorem argmaxIdx_spec (l : List K) (h : l ≠ []) :
    argmaxIdx l < l.length ∧
    (∀ t, t < l.length → l.getD t 0 ≤ l.getD (argmaxIdx l) 0) ∧
    (∀ t, t < argmaxIdx l → l.getD t 0 < l.getD (argmaxIdx l) 0) := by
  cases l with
  | nil => exact absurd rfl h
  | cons x xs =>
    have hdef : argmaxIdx (x :: xs) = argmaxAux xs 1 0 x := rfl
    rcases argmaxAux_spec xs 1 0 x with ⟨he, hall⟩ | ⟨s, hs, he, hv, hmax, hfirst⟩
    · rw [hdef, he]
      refine ⟨by simp, ?_, fun t ht => by omega⟩
      intro t ht
      cases t with
      | zero => simp
      | succ t => simpa using hall t (by simpa using ht)
    · rw [hdef, he, show 1 + s = s + 1 from by omega]
      refine ⟨by simpa using hs, ?_, ?_⟩
      · intro t ht
        cases t with
        | zero => simpa using le_of_lt hv
        | succ t => simpa using hmax t (by simpa using ht)
      · intro t ht
        cases t with
        | zero => simpa using hv
        | succ t => simpa using hfirst t (by omega)

theorem argmaxIdx_of_all_zero (l : List K) (h : ∀ x ∈ l, x = 0) : argmaxIdx l = 0 := by
  cases hl : l with
  | nil => rfl
  | cons x xs =>
    subst hl
    by_contra hne
    have hspec := argmaxIdx_spec (x :: xs) (by simp)
    have hlt := hspec.2.2 0 (by omega)
    rw [getD_zero_of_all_zero _ h, getD_zero_of_all_zero _ h] at hlt
    exact absurd hlt (by simp)

/-! ### Lemmas about `f_region` and the candidate vectors -/

theorem length_dlensOf (sqrt : K → K) (R : List (List K)) (nf j : ℕ) :
    (dlensOf sqrt R nf j).length = nf - j := by
  simp [dlensOf]

theorem length_f_region (lin_idx : List ℕ) (dlens : List K) (piv : List ℕ) (j cs : ℕ) :
    (f_region lin_idx dlens piv j cs).length = min dlens.length (piv.length - j) := by
  unfold f_region
  split <;> simp [List.length_zipWith]

theorem f_region_getD_forced (lin_idx : List ℕ) (dlens : List K) (piv : List ℕ)
    (j cs i : ℕ) (hj : j < cs) (h1 : i < dlens.length) (h2 : i < piv.length - j) :
    (f_region lin_idx dlens piv j cs).getD i 0 =
      if piv.getD (j + i) 0 ∈ lin_idx then dlens.getD i 0 else 0 := by
  unfold f_region
  rw [if_pos hj, getD_zipWith' _ _ _ _ 0 0 _ h1 (by simpa using h2), getD_drop']

theorem f_region_getD_post (lin_idx : List ℕ) (dlens : List K) (piv : List ℕ)
    (j cs i : ℕ) (hj : ¬ j < cs) (h1 : i < dlens.length) (h2 : i < piv.length - j) :
    (f_region lin_idx dlens piv j cs).getD i 0 =
      if piv.getD (j + i) 0 ∈ lin_idx then 0 else dlens.getD i 0 := by
  unfold f_region
  rw [if_neg hj, getD_zipWith' _ _ _ _ 0 0 _ h1 (by simpa using h2), getD_drop']

theorem mem_zipWith_imp {α β γ : Type} (f : α → β → γ) :
    ∀ (l₁ : List α) (l₂ : List β) (x : γ), x ∈ List.zipWith f l₁ l₂ →
      ∃ a ∈ l₁, ∃ b ∈ l₂, x = f a b
  | [], _, x, h => by simp at h
  | _ :: _, [], x, h => by simp at h
  | a :: as, b :: bs, x, h => by
      rw [List.zipWith_cons_cons, List.mem_cons] at h
      rcases h with h | h
      · exact ⟨a, by simp, b, by simp, h⟩
      · obtain ⟨a', ha', b', hb', he⟩ := mem_zipWith_imp f as bs x h
        exact ⟨a', by simp [ha'], b', by simp [hb'], he⟩

theorem mem_f_region_imp (lin_idx : List ℕ) (dlens : List K) (piv : List ℕ) (j cs : ℕ)
    (x : K) (hx : x ∈ f_region lin_idx dlens piv j cs) : x = 0 ∨ x ∈ dlens := by
  unfold f_region at hx
  split at hx <;>
  · obtain ⟨a, ha, b, _, he⟩ := mem_zipWith_imp _ _ _ _ hx
    subst he
    split
    · first
        | exact Or.inr ha
        | exact Or.inl rfl
    · first
        | exact Or.inr ha
        | exact Or.inl rfl

theorem f_region_all_zero (lin_idx : List ℕ) (dlens : List K) (piv : List ℕ) (j cs : ℕ)
    (h : ∀ y ∈ dlens, y = 0) : ∀ x ∈ f_region lin_idx dlens piv j cs, x = 0 := by
  intro x hx
  rcases mem_f_region_imp lin_idx dlens piv j cs x hx with h0 | hd
  · exact h0
  · exact h x hd

/-! ### Shape and projection lemmas for the loop -/

theorem length_applyReflector (R : List (List K)) (j : ℕ) (u : List K) :
    (applyReflector R j u).length = R.length := by
  simp [applyReflector]

theorem length_zeroBelow (R : List (List K)) (j : ℕ) :
    (zeroBelow R j).length = R.length := by
  simp [zeroBelow]

theorem length_swapCols (R : List (List K)) (a b : ℕ) :
    (swapCols R a b).length = R.length := by
  simp [swapCols]

theorem length_writeEntry (R : List (List K)) (i j : ℕ) (v : K) :
    (writeEntry R i j v).length = R.length := by
  simp [writeEntry]

theorem gqrStepFull_p (sqrt : K → K) (cIdx : List ℕ) (cs nf j : ℕ) (s : GQRState K) :
    (gqrStepFull sqrt cIdx cs nf j s).1.p =
      swapList s.p j (argmaxIdx (f_region cIdx (dlensOf sqrt s.R nf j) s.p j cs) + j) := by
  simp only [gqrStepFull]
  split <;> rfl

theorem gqrStepFull_basis (sqrt : K → K) (cIdx : List ℕ) (cs nf j : ℕ) (s : GQRState K) :
    (gqrStepFull sqrt cIdx cs nf j s).1.basis = s.basis := by
  simp only [gqrStepFull]
  split <;> rfl

theorem gqrStepFull_R_length (sqrt : K → K) (cIdx : List ℕ) (cs nf j : ℕ) (s : GQRState K) :
    (gqrStepFull sqrt cIdx cs nf j s).1.R.length = s.R.length := by
  simp only [gqrStepFull]
  split <;>
    simp [length_zeroBelow, length_applyReflector, length_swapCols, length_writeEntry]

theorem gqrState_p_length (sqrt : K → K) (cIdx : List ℕ) (cs : ℕ) (basis : List (List K)) :
    ∀ j, (gqrState sqrt cIdx cs basis j).p.length = basis.length
  | 0 => by simp [gqrState]
  | j + 1 => by
      rw [gqrState, gqrStep, gqrStepFull_p, swapList_length]
      exact gqrState_p_length sqrt cIdx cs basis j

theorem gqrState_R_length (sqrt : K → K) (cIdx : List ℕ) (cs : ℕ) (basis : List (List K)) :
    ∀ j, (gqrState sqrt cIdx cs basis j).R.length = (basis.headD []).length
  | 0 => by simp [gqrState, transposeConj]
  | j + 1 => by
      rw [gqrState, gqrStep, gqrStepFull_R_length]
      exact gqrState_R_length sqrt cIdx cs basis j

theorem gqrState_succ_p (sqrt : K → K) (cIdx : List ℕ) (cs : ℕ) (basis : List (List K)) (j : ℕ) :
    (gqrState sqrt cIdx cs basis (j + 1)).p =
      swapList (gqrState sqrt cIdx cs basis j).p j (gqrPivAt sqrt cIdx cs basis j + j) := by
  rw [gqrState, gqrStep, gqrStepFull_p]
  rfl

theorem gqrState_p_frozen (sqrt : K → K) (cIdx : List ℕ) (cs : ℕ) (basis : List (List K))
    (t j : ℕ) (ht : t < j) :
    ∀ m, j ≤ m → (gqrState sqrt cIdx cs basis m).p.getD t 0 =
      (gqrState sqrt cIdx cs basis j).p.getD t 0 := by
  intro m
  induction m with
  | zero => intro hm; rw [Nat.le_zero.mp hm]
  | succ m ih =>
    intro hm
    rcases Nat.lt_or_ge j (m + 1) with hlt | hge
    · have hjm : j ≤ m := by omega
      rw [gqrState_succ_p, swapList_getD_other _ _ _ _ (by omega) (by omega), ih hjm]
    · have hje : j = m + 1 := by omega
      rw [hje]

/-! ### Consequences of a positive selected masked norm -/

theorem length_gqrMaskedAt (sqrt : K → K) (cIdx : List ℕ) (cs : ℕ) (basis : List (List K))
    (j : ℕ) : (gqrMaskedAt sqrt cIdx cs basis j).length = basis.length - j := by
  rw [gqrMaskedAt, length_f_region, gqrDlensAt, length_dlensOf, gqrState_p_length]
  omega

theorem gqrSelNormAt_pos_pivot (sqrt : K → K) (cIdx : List ℕ) (cs : ℕ) (basis : List (List K))
    (j : ℕ) (h : 0 < gqrSelNormAt sqrt cIdx cs basis j) :
    gqrPivAt sqrt cIdx cs basis j < basis.length - j ∧
    (j < cs →
      (gqrState sqrt cIdx cs basis j).p.getD (j + gqrPivAt sqrt cIdx cs basis j) 0 ∈ cIdx) ∧
    (cs ≤ j →
      (gqrState sqrt cIdx cs basis j).p.getD (j + gqrPivAt sqrt cIdx cs basis j) 0 ∉ cIdx) := by
  have hi0 : gqrPivAt sqrt cIdx cs basis j < (gqrMaskedAt sqrt cIdx cs basis j).length := by
    by_contra hge
    rw [gqrSelNormAt, List.getD_eq_default _ _ (by omega)] at h
    exact absurd h (by simp)
  have hlen := length_gqrMaskedAt sqrt cIdx cs basis j
  have hdl : gqrPivAt sqrt cIdx cs basis j < (gqrDlensAt sqrt cIdx cs basis j).length := by
    rw [gqrDlensAt, length_dlensOf]; omega
  have hpv : gqrPivAt sqrt cIdx cs basis j <
      (gqrState sqrt cIdx cs basis j).p.length - j := by
    rw [gqrState_p_length]; omega
  refine ⟨by omega, ?_, ?_⟩
  · intro hj
    have hsel := h
    rw [gqrSelNormAt, gqrMaskedAt, f_region_getD_forced _ _ _ _ _ _ hj hdl hpv] at hsel
    by_contra hmem
    rw [if_neg hmem] at hsel
    exact absurd hsel (by simp)
  · intro hj
    have hsel := h
    rw [gqrSelNormAt, gqrMaskedAt, f_region_getD_post _ _ _ _ _ _ (by omega) hdl hpv] at hsel
    by_contra hmem
    rw [if_pos hmem] at hsel
    exact absurd hsel (by simp)

theorem gqrSelNormAt_zero_of_samples_le (cIdx : List ℕ) (cs : ℕ) (basis : List (List ℝ))
    (j : ℕ) (h : (basis.headD []).length ≤ j) :
    gqrSelNormAt Real.sqrt cIdx cs basis j = 0 := by
  have hR := gqrState_R_length Real.sqrt cIdx cs basis j
  have hdrop : (gqrState Real.sqrt cIdx cs basis j).R.drop j = [] :=
    List.drop_eq_nil_of_le (by omega)
  have hdl : ∀ y ∈ gqrDlensAt Real.sqrt cIdx cs basis j, y = 0 := by
    intro y hy
    rw [gqrDlensAt, dlensOf] at hy
    obtain ⟨c, _, rfl⟩ := List.mem_map.mp hy
    rw [colSq, hdrop]
    simp
  have hall := f_region_all_zero cIdx (gqrDlensAt Real.sqrt cIdx cs basis j)
    (gqrState Real.sqrt cIdx cs basis j).p j cs hdl
  rw [gqrSelNormAt]
  exact getD_zero_of_all_zero _ hall _

theorem gqrSelNormAt_pos_lt_k (cIdx : List ℕ) (cs : ℕ) (basis : List (List ℝ)) (j : ℕ)
    (h : 0 < gqrSelNormAt Real.sqrt cIdx cs basis j) :
    j < min (basis.headD []).length basis.length := by
  have h1 : j < (basis.headD []).length := by
    by_contra hge
    rw [gqrSelNormAt_zero_of_samples_le cIdx cs basis j (by omega)] at h
    exact absurd h (by simp)
  have h2 := (gqrSelNormAt_pos_pivot Real.sqrt cIdx cs basis j h).1
  omega

theorem gqr_final_getD (cIdx : List ℕ) (cs : ℕ) (basis : List (List ℝ)) (t : ℕ)
    (h : 0 < gqrSelNormAt Real.sqrt cIdx cs basis t) :
    (gqrPivots Real.sqrt cIdx cs basis).getD t 0 =
      (gqrState Real.sqrt cIdx cs basis t).p.getD
        (t + gqrPivAt Real.sqrt cIdx cs basis t) 0 := by
  have htk := gqrSelNormAt_pos_lt_k cIdx cs basis t h
  have hnf := (gqrSelNormAt_pos_pivot Real.sqrt cIdx cs basis t h).1
  have hplen := gqrState_p_length Real.sqrt cIdx cs basis t
  rw [gqrPivots,
    gqrState_p_frozen Real.sqrt cIdx cs basis t (t + 1) (by omega) _ (by omega),
    gqrState_succ_p, swapList_getD_left _ _ _ (by omega), Nat.add_comm]

/-! ### Equivalence with the baseline when no masking can occur -/

theorem f_region_empty_zero (dl : List K) (p : List ℕ) (j : ℕ)
    (hlen : dl.length ≤ p.length - j) : f_region [] dl p j 0 = dl := by
  rw [f_region, if_neg (by omega)]
  have he : (fun (d : K) (q : ℕ) => if q ∈ ([] : List ℕ) then 0 else d) = fun d _ => d := by
    funext d q
    simp
  rw [he, zipWith_fst_take]
  exact List.take_of_length_le (by rw [List.length_drop]; omega)

theorem gqrStepFull_empty_eq (sqrt : K → K) (nf j : ℕ) (s : GQRState K)
    (hp : nf ≤ s.p.length) :
    gqrStepFull sqrt [] 0 nf j s = qrStepFull sqrt nf j s := by
  have hm : f_region [] (dlensOf sqrt s.R nf j) s.p j 0 = dlensOf sqrt s.R nf j :=
    f_region_empty_zero _ _ _ (by rw [length_dlensOf]; omega)
  simp only [gqrStepFull, qrStepFull, hm]

theorem gqr_qr_state_eq (sqrt : K → K) (basis : List (List K)) :
    ∀ j, gqrState sqrt [] 0 basis j = qrState sqrt basis j
  | 0 => rfl
  | j + 1 => by
      have hp : basis.length ≤ (gqrState sqrt [] 0 basis j).p.length := by
        rw [gqrState_p_length]
      rw [gqrState, qrState, gqrStep,
        gqrStepFull_empty_eq sqrt basis.length j _ hp, gqr_qr_state_eq sqrt basis j]

/-- The permutation is a permutation of `0..n_features-1` at every reachable
loop state. -/
theorem gqrState_p_perm (sqrt : K → K) (cIdx : List ℕ) (cs : ℕ) (basis : List (List K)) :
    ∀ j, j ≤ min (basis.headD []).length basis.length →
      (gqrState sqrt cIdx cs basis j).p.Perm (List.range basis.length)
  | 0, _ => by rw [gqrState]
  | j + 1, hj => by
      have hlen := length_gqrMaskedAt sqrt cIdx cs basis j
      have hne : gqrMaskedAt sqrt cIdx cs basis j ≠ [] := by
        have : 0 < (gqrMaskedAt sqrt cIdx cs basis j).length := by omega
        exact List.length_pos.mp this
      have hbound := (argmaxIdx_spec _ hne).1
      have hplen := gqrState_p_length sqrt cIdx cs basis j
      rw [gqrState_succ_p]
      exact (swapList_perm _ _ _ (by omega) (by rw [hplen, gqrPivAt]; omega)).trans
        (gqrState_p_perm sqrt cIdx cs basis j (by omega))

/-! ### Claim theorems -/

/-- C1 (counterexample): with `n_constrained_sensors = 0` and the nonempty
constrained set `{0}`, the ranker on the 2×2 identity matrix returns the
permutation `[1, 0]`, while the unconstrained baseline pivoted QR returns
`[0, 1]`: with a zero constrained budget the masking step *does* change the
pivot choices (it excludes the constrained region at every iteration). -/
theorem C1_counterexample :
    GQRfit Real.sqrt [0] 1 0 [[(1 : ℝ), 0], [0, 1]] = Except.ok [1, 0] ∧
    qrPivots Real.sqrt [[(1 : ℝ), 0], [0, 1]] = [0, 1] ∧
    ([1, 0] : List ℕ) ≠ [0, 1] := by
  refine ⟨?_, ?_, by decide⟩
  · norm_num [GQRfit, gqrPivots, gqrState, gqrStep, gqrStepFull, dlensOf, colSq, colFrom,
      f_region, argmaxIdx, argmaxAux, swapList, swapCols, writeEntry, zeroBelow,
      applyReflector, dotCol, npSign, transposeConj, List.range_succ, Real.sqrt_one,
      Real.sqrt_zero]
  · norm_num [qrPivots, qrState, qrStepFull, dlensOf, colSq, colFrom, argmaxIdx, argmaxAux,
      swapList, swapCols, writeEntry, zeroBelow, applyReflector, dotCol, npSign,
      transposeConj, List.range_succ, Real.sqrt_one, Real.sqrt_zero]

/-- C1 (amended): the ranker with `n_constrained_sensors = 0` coincides with
the unconstrained baseline pivoted QR exactly in the case in which no masking
can occur, namely when the constrained-index set is empty; with a nonempty
constrained set the `else` branch of the mask excludes the constrained region
at every iteration (the CCQR behaviour announced in the class docstring), so
the permutations can differ. -/
theorem C1_equiv_baseline (sqrt : K → K) (basis : List (List K)) :
    gqrPivots sqrt [] 0 basis = qrPivots sqrt basis := by
  rw [gqrPivots, qrPivots, gqr_qr_state_eq]

/-- C4: the loop's permutation output is always a permutation of
`0..n_features-1` — length `n_features`, no duplicates, no omissions — and
`fit` either fails one of its checks or returns exactly that permutation.
The invariant holds because `p` starts as `np.arange(n_features)` and each
iteration only swaps the two in-bounds positions `j` and `i_piv`. -/
theorem C4_permutation_validity (sqrt : K → K) (cIdx : List ℕ) (nSensors cs : ℕ)
    (basis : List (List K)) :
    (gqrPivots sqrt cIdx cs basis).Perm (List.range basis.length) ∧
    (gqrPivots sqrt cIdx cs basis).length = basis.length ∧
    ((∃ e, GQRfit sqrt cIdx nSensors cs basis = Except.error e) ∨
      GQRfit sqrt cIdx nSensors cs basis = Except.ok (gqrPivots sqrt cIdx cs basis)) := by
  refine ⟨gqrState_p_perm sqrt cIdx cs basis _ (le_refl _), ?_, ?_⟩
  · rw [gqrPivots, gqrState_p_length]
  · simp only [GQRfit]
    split
    · exact Or.inl ⟨_, rfl⟩
    · split
      · exact Or.inl ⟨_, rfl⟩
      · exact Or.inr rfl

/-- C5: when `n_sensors` exceeds `n_features - |constrained_indices| +
n_constrained_sensors` (Python integer arithmetic), `fit` fails with the
budget error of line 71 before any matrix work: no working matrix, no
permutation and no `pivots_` assignment is produced. -/
theorem C5_feasibility_rejection (sqrt : K → K) (cIdx : List ℕ) (nSensors cs : ℕ)
    (basis : List (List K))
    (h : (nSensors : ℤ) > (basis.length : ℤ) - (cIdx.length : ℤ) + (cs : ℤ)) :
    GQRfit sqrt cIdx nSensors cs basis = Except.error GQRErr.ioErrorBudget := by
  simp only [GQRfit]
  rw [if_pos h]

theorem C5_witness :
    ((1 : ℤ) > (([[(1 : ℝ), 0], [0, 1]].length : ℕ) : ℤ) -
        (([0, 1, 2].length : ℕ) : ℤ) + ((0 : ℕ) : ℤ)) ∧
    GQRfit Real.sqrt [0, 1, 2] 1 0 [[(1 : ℝ), 0], [0, 1]] =
      Except.error GQRErr.ioErrorBudget :=
  ⟨by norm_num, C5_feasibility_rejection Real.sqrt [0, 1, 2] 1 0 _ (by norm_num)⟩

/-- C8: `fit` never mutates the caller's basis matrix: the loop works on the
copy `R` made at line 77 and on `p`, and the basis matrix carried in the run
state is identical to the input at every iteration. -/
theorem C8_basis_not_mutated (sqrt : K → K) (cIdx : List ℕ) (cs : ℕ)
    (basis : List (List K)) : ∀ j, (gqrState sqrt cIdx cs basis j).basis = basis := by
  intro j
  induction j with
  | zero => rfl
  | succ j ih =>
    rw [gqrState, gqrStep, gqrStepFull_basis]
    exact ih

/-- C10: a basis matrix passing the first feasibility check but failing the
second (`n_sensors > n_samples + n_constrained_sensors`) makes `fit` raise
`NameError` — the message of the intended `IOError` formats the unbound name
`n_sensors` — before the working matrix `R` or the permutation `p` is
created. -/
theorem C10_name_error (sqrt : K → K) (cIdx : List ℕ) (nSensors cs : ℕ)
    (basis : List (List K))
    (h1 : ¬ (nSensors : ℤ) > (basis.length : ℤ) - (cIdx.length : ℤ) + (cs : ℤ))
    (h2 : (nSensors : ℤ) > (((basis.headD []).length : ℕ) : ℤ) + (cs : ℤ)) :
    GQRfit sqrt cIdx nSensors cs basis = Except.error GQRErr.nameErrorNSensors := by
  simp only [GQRfit]
  rw [if_neg h1, if_pos h2, show check2UnboundName = true from by decide]
  rfl

/-- C2 (counterexample): the 2×1 basis `[[1],[0]]` with
`constrained_indices = [1]`, `n_sensors = 2`, `n_constrained_sensors = 1`
passes both checks and `|constrained_indices| ≥ 1 > 0`, yet the first entry
of the returned permutation is `0 ∉ [1]`: the constrained column is zero, so
the forced-phase masked vector is all-zero and `argmax` falls back to the
first (unconstrained) candidate. -/
theorem C2_counterexample :
    (¬ (2 : ℤ) > (([[(1 : ℝ)], [0]].length : ℕ) : ℤ) -
        (([1] : List ℕ).length : ℤ) + ((1 : ℕ) : ℤ)) ∧
    (¬ (2 : ℤ) > ((([[(1 : ℝ)], [0]].headD []).length : ℕ) : ℤ) + ((1 : ℕ) : ℤ)) ∧
    (0 : ℕ) < 1 ∧ (1 : ℕ) ≤ ([1] : List ℕ).length ∧
    GQRfit Real.sqrt [1] 2 1 [[(1 : ℝ)], [0]] = Except.ok [0, 1] ∧
    ([0, 1] : List ℕ).getD 0 0 ∉ ([1] : List ℕ) := by
  refine ⟨by norm_num, by norm_num, by norm_num, by norm_num, ?_, by decide⟩
  norm_num [GQRfit, gqrPivots, gqrState, gqrStep, gqrStepFull, dlensOf, colSq, colFrom,
    f_region, argmaxIdx, argmaxAux, swapList, swapCols, writeEntry, zeroBelow,
    applyReflector, dotCol, npSign, transposeConj, List.range_succ, Real.sqrt_one,
    Real.sqrt_zero]

/-- C2 (amended): for `m = n_constrained_sensors > 0` with
`|constrained_indices| ≥ m` and both checks passing, the first `m` entries of
the returned permutation are members of `constrained_indices`, *provided* at
each forced-phase iteration `j < m` the selected masked norm is strictly
positive (some constrained candidate still has nonzero norm); an all-zero
masked vector instead makes `argmax` select the leading candidate regardless
of region. -/
theorem C2_quota_satisfaction (cIdx : List ℕ) (nSensors cs : ℕ) (basis : List (List ℝ))
    (h1 : ¬ (nSensors : ℤ) > (basis.length : ℤ) - (cIdx.length : ℤ) + (cs : ℤ))
    (h2 : ¬ (nSensors : ℤ) > (((basis.headD []).length : ℕ) : ℤ) + (cs : ℤ))
    (hm : 0 < cs) (hmc : cs ≤ cIdx.length)
    (hpos : ∀ j, j < cs → 0 < gqrSelNormAt Real.sqrt cIdx cs basis j) :
    GQRfit Real.sqrt cIdx nSensors cs basis =
      Except.ok (gqrPivots Real.sqrt cIdx cs basis) ∧
    ∀ t, t < cs → (gqrPivots Real.sqrt cIdx cs basis).getD t 0 ∈ cIdx := by
  constructor
  · simp only [GQRfit]
    rw [if_neg h1, if_neg h2]
  · intro t ht
    have hp := hpos t ht
    rw [gqr_final_getD cIdx cs basis t hp]
    exact (gqrSelNormAt_pos_pivot Real.sqrt cIdx cs basis t hp).2.1 ht

theorem C2_witness :
    (¬ (2 : ℤ) > (([[(1 : ℝ), 0], [0, 1]].length : ℕ) : ℤ) -
        (([0] : List ℕ).length : ℤ) + ((1 : ℕ) : ℤ)) ∧
    (¬ (2 : ℤ) > ((([[(1 : ℝ), 0], [0, 1]].headD []).length : ℕ) : ℤ) + ((1 : ℕ) : ℤ)) ∧
    (0 : ℕ) < 1 ∧ (1 : ℕ) ≤ ([0] : List ℕ).length ∧
    (∀ j, j < 1 → 0 < gqrSelNormAt Real.sqrt [0] 1 [[(1 : ℝ), 0], [0, 1]] j) ∧
    (∀ t, t < 1 →
      (gqrPivots Real.sqrt [0] 1 [[(1 : ℝ), 0], [0, 1]]).getD t 0 ∈ ([0] : List ℕ)) := by
  have hpos : ∀ j, j < 1 → 0 < gqrSelNormAt Real.sqrt [0] 1 [[(1 : ℝ), 0], [0, 1]] j := by
    intro j hj
    have hj0 : j = 0 := by omega
    subst hj0
    norm_num [gqrSelNormAt, gqrPivAt, gqrMaskedAt, gqrDlensAt, gqrState, dlensOf, colSq,
      colFrom, f_region, argmaxIdx, argmaxAux, transposeConj, List.range_succ,
      Real.sqrt_one, Real.sqrt_zero]
  exact ⟨by norm_num, by norm_num, by norm_num, by norm_num, hpos,
    (C2_quota_satisfaction [0] 2 1 [[(1 : ℝ), 0], [0, 1]] (by norm_num) (by norm_num)
      (by norm_num) (by norm_num) hpos).2⟩

/-- C3 (counterexample): the 2×1 basis `[[1],[0]]` with
`constrained_indices = [0]`, `n_sensors = 1`, `n_constrained_sensors = 0`
passes both checks, and the unconstrained region (`{1}`) has
`n_sensors - m = 1` available column by count, yet the entry at position `0`
of the returned permutation is `0 ∈ constrained_indices`: the only
unconstrained column is zero, so the post-quota masked vector is all-zero and
`argmax` falls back to the leading constrained candidate. -/
theorem C3_counterexample :
    (¬ (1 : ℤ) > (([[(1 : ℝ)], [0]].length : ℕ) : ℤ) -
        (([0] : List ℕ).length : ℤ) + ((0 : ℕ) : ℤ)) ∧
    (¬ (1 : ℤ) > ((([[(1 : ℝ)], [0]].headD []).length : ℕ) : ℤ) + ((0 : ℕ) : ℤ)) ∧
    1 - 0 ≤ ((List.range ([[(1 : ℝ)], [0]].length)).filter
      fun q => q ∉ ([0] : List ℕ)).length ∧
    GQRfit Real.sqrt [0] 1 0 [[(1 : ℝ)], [0]] = Except.ok [0, 1] ∧
    (0 : ℕ) ≤ 0 ∧ (0 : ℕ) < 1 ∧ ([0, 1] : List ℕ).getD 0 0 ∈ ([0] : List ℕ) := by
  refine ⟨by norm_num, by norm_num, by decide, ?_, by norm_num, by norm_num, by decide⟩
  norm_num [GQRfit, gqrPivots, gqrState, gqrStep, gqrStepFull, dlensOf, colSq, colFrom,
    f_region, argmaxIdx, argmaxAux, swapList, swapCols, writeEntry, zeroBelow,
    applyReflector, dotCol, npSign, transposeConj, List.range_succ, Real.sqrt_one,
    Real.sqrt_zero]

/-- C3 (amended): with both checks passing, the entries of the returned
permutation at positions `m .. n_sensors-1` (`m = n_constrained_sensors`)
contain no member of `constrained_indices`, *provided* at each post-quota
iteration `m ≤ j < n_sensors` the selected masked norm is strictly positive
(the unconstrained region still offers a nonzero-norm column — mere
availability by count is not enough). -/
theorem C3_post_quota_exclusion (cIdx : List ℕ) (nSensors cs : ℕ) (basis : List (List ℝ))
    (h1 : ¬ (nSensors : ℤ) > (basis.length : ℤ) - (cIdx.length : ℤ) + (cs : ℤ))
    (h2 : ¬ (nSensors : ℤ) > (((basis.headD []).length : ℕ) : ℤ) + (cs : ℤ))
    (hpos : ∀ j, cs ≤ j → j < nSensors → 0 < gqrSelNormAt Real.sqrt cIdx cs basis j) :
    GQRfit Real.sqrt cIdx nSensors cs basis =
      Except.ok (gqrPivots Real.sqrt cIdx cs basis) ∧
    ∀ t, cs ≤ t → t < nSensors →
      (gqrPivots Real.sqrt cIdx cs basis).getD t 0 ∉ cIdx := by
  constructor
  · simp only [GQRfit]
    rw [if_neg h1, if_neg h2]
  · intro t htc htn
    have hp := hpos t htc htn
    rw [gqr_final_getD cIdx cs basis t hp]
    exact (gqrSelNormAt_pos_pivot Real.sqrt cIdx cs basis t hp).2.2 htc

theorem C3_witness :
    (¬ (1 : ℤ) > (([[(1 : ℝ), 0], [0, 1]].length : ℕ) : ℤ) -
        (([0] : List ℕ).length : ℤ) + ((0 : ℕ) : ℤ)) ∧
    (¬ (1 : ℤ) > ((([[(1 : ℝ), 0], [0, 1]].headD []).length : ℕ) : ℤ) + ((0 : ℕ) : ℤ)) ∧
    (∀ j, 0 ≤ j → j < 1 → 0 < gqrSelNormAt Real.sqrt [0] 0 [[(1 : ℝ), 0], [0, 1]] j) ∧
    (∀ t, 0 ≤ t → t < 1 →
      (gqrPivots Real.sqrt [0] 0 [[(1 : ℝ), 0], [0, 1]]).getD t 0 ∉ ([0] : List ℕ)) := by
  have hpos : ∀ j, 0 ≤ j → j < 1 →
      0 < gqrSelNormAt Real.sqrt [0] 0 [[(1 : ℝ), 0], [0, 1]] j := by
    intro j _ hj
    have hj0 : j = 0 := by omega
    subst hj0
    norm_num [gqrSelNormAt, gqrPivAt, gqrMaskedAt, gqrDlensAt, gqrState, dlensOf, colSq,
      colFrom, f_region, argmaxIdx, argmaxAux, transposeConj, List.range_succ,
      Real.sqrt_one, Real.sqrt_zero]
  exact ⟨by norm_num, by norm_num, hpos,
    (C3_post_quota_exclusion [0] 1 0 [[(1 : ℝ), 0], [0, 1]] (by norm_num) (by norm_num)
      hpos).2⟩

/-- C7: at every iteration the pivot is `np.argmax` of the masked candidate
vector: it is in bounds, its value dominates every candidate, and every
earlier candidate is strictly smaller (first occurrence of the maximum, the
standard argmax tie-break). -/
theorem C7_argmax_pivot (sqrt : K → K) (cIdx : List ℕ) (cs : ℕ) (basis : List (List K))
    (j : ℕ) (h : gqrMaskedAt sqrt cIdx cs basis j ≠ []) :
    gqrPivAt sqrt cIdx cs basis j < (gqrMaskedAt sqrt cIdx cs basis j).length ∧
    (∀ t, t < (gqrMaskedAt sqrt cIdx cs basis j).length →
      (gqrMaskedAt sqrt cIdx cs basis j).getD t 0 ≤
        (gqrMaskedAt sqrt cIdx cs basis j).getD (gqrPivAt sqrt cIdx cs basis j) 0) ∧
    (∀ t, t < gqrPivAt sqrt cIdx cs basis j →
      (gqrMaskedAt sqrt cIdx cs basis j).getD t 0 <
        (gqrMaskedAt sqrt cIdx cs basis j).getD (gqrPivAt sqrt cIdx cs basis j) 0) :=
  argmaxIdx_spec _ h

theorem C7_witness :
    gqrMaskedAt Real.sqrt [] 0 [[(1 : ℝ), 0], [0, 1]] 0 ≠ [] ∧
    gqrPivAt Real.sqrt [] 0 [[(1 : ℝ), 0], [0, 1]] 0 <
      (gqrMaskedAt Real.sqrt [] 0 [[(1 : ℝ), 0], [0, 1]] 0).length := by
  have hval : gqrMaskedAt Real.sqrt [] 0 [[(1 : ℝ), 0], [0, 1]] 0 = [1, 1] := by
    norm_num [gqrMaskedAt, gqrDlensAt, gqrState, dlensOf, colSq, colFrom, f_region,
      transposeConj, List.range_succ, Real.sqrt_one, Real.sqrt_zero]
  have hne : gqrMaskedAt Real.sqrt [] 0 [[(1 : ℝ), 0], [0, 1]] 0 ≠ [] := by
    rw [hval]
    exact List.cons_ne_nil _ _
  exact ⟨hne, (C7_argmax_pivot Real.sqrt [] 0 [[(1 : ℝ), 0], [0, 1]] 0 hne).1⟩

/-! ### Row-shape invariant and reflector extraction (for the degenerate branch) -/

theorem getD_mem_of_lt {α : Type} (l : List α) (i : ℕ) (d : α) (h : i < l.length) :
    l.getD i d ∈ l := by
  rw [List.getD_eq_getElem?_getD, List.getElem?_eq_getElem h, Option.getD_some]
  exact List.getElem_mem h

theorem rows_length_swapCols (R : List (List K)) (a b nf : ℕ)
    (h : ∀ row ∈ R, row.length = nf) : ∀ row ∈ swapCols R a b, row.length = nf := by
  intro row hrow
  rw [swapCols] at hrow
  obtain ⟨r, hr, he⟩ := List.mem_map.mp hrow
  rw [← he]
  simp [h r hr]

theorem rows_length_writeEntry (R : List (List K)) (i j nf : ℕ) (v : K)
    (h : ∀ row ∈ R, row.length = nf) : ∀ row ∈ writeEntry R i j v, row.length = nf := by
  intro row hrow
  by_cases hi : i < R.length
  · rw [writeEntry] at hrow
    rcases List.mem_or_eq_of_mem_set hrow with hmem | heq
    · exact h row hmem
    · rw [heq, List.length_set]
      exact h _ (getD_mem_of_lt R i [] hi)
  · rw [writeEntry, List.set_eq_of_length_le (by omega)] at hrow
    exact h row hrow

theorem rows_length_applyReflector (R : List (List K)) (j nf : ℕ) (u : List K)
    (h : ∀ row ∈ R, row.length = nf) : ∀ row ∈ applyReflector R j u, row.length = nf := by
  intro row hrow
  rw [applyReflector] at hrow
  obtain ⟨ri, hri, he⟩ := List.mem_map.mp hrow
  rw [List.mem_range] at hri
  have hlen : (R.getD ri []).length = nf := h _ (getD_mem_of_lt R ri [] hri)
  rw [← he]
  split
  · exact hlen
  · rw [List.length_map, List.length_range]
    exact hlen

theorem rows_length_zeroBelow (R : List (List K)) (j nf : ℕ)
    (h : ∀ row ∈ R, row.length = nf) : ∀ row ∈ zeroBelow R j, row.length = nf := by
  intro row hrow
  rw [zeroBelow] at hrow
  obtain ⟨ri, hri, he⟩ := List.mem_map.mp hrow
  rw [List.mem_range] at hri
  have hlen : (R.getD ri []).length = nf := h _ (getD_mem_of_lt R ri [] hri)
  rw [← he]
  split
  · rw [List.length_set]
    exact hlen
  · exact hlen

theorem gqrStepFull_rows_length (sqrt : K → K) (cIdx : List ℕ) (cs nf j nr : ℕ)
    (s : GQRState K) (h : ∀ row ∈ s.R, row.length = nr) :
    ∀ row ∈ (gqrStepFull sqrt cIdx cs nf j s).1.R, row.length = nr := by
  simp only [gqrStepFull]
  split
  · exact rows_length_zeroBelow _ _ _
      (rows_length_applyReflector _ _ _ _ (rows_length_swapCols _ _ _ _ h))
  · exact rows_length_zeroBelow _ _ _
      (rows_length_applyReflector _ _ _ _
        (rows_length_swapCols _ _ _ _ (rows_length_writeEntry _ _ _ _ _ h)))

theorem gqrState_rows_length (sqrt : K → K) (cIdx : List ℕ) (cs : ℕ)
    (basis : List (List K)) :
    ∀ j, ∀ row ∈ (gqrState sqrt cIdx cs basis j).R, row.length = basis.length
  | 0 => by
      intro row hrow
      rw [gqrState, transposeConj] at hrow
      obtain ⟨i, _, he⟩ := List.mem_map.mp hrow
      rw [← he]
      simp
  | j + 1 => by
      rw [gqrState, gqrStep]
      exact gqrStepFull_rows_length sqrt cIdx cs basis.length j basis.length _
        (gqrState_rows_length sqrt cIdx cs basis j)

theorem swapCols_self (R : List (List K)) (a : ℕ) : swapCols R a a = R := by
  rw [swapCols]
  have he : (fun (row : List K) => (row.set a (row.getD a 0)).set a (row.getD a 0)) =
      fun row => row := by
    funext row
    rw [List.set_set, set_getD_self']
  rw [he]
  exact List.map_id' R

theorem colFrom_writeEntry_self (R : List (List K)) (j : ℕ) (v : K)
    (hj : j < R.length) (hrow : j < (R.getD j []).length) :
    colFrom (writeEntry R j j v) j j = v :: colFrom R (j + 1) j := by
  rw [colFrom, writeEntry, List.drop_set, if_neg (by omega), Nat.sub_self,
    List.drop_eq_getElem_cons hj,
    show (R[j] : List K) = R.getD j [] from by
      rw [List.getD_eq_getElem?_getD, List.getElem?_eq_getElem hj, Option.getD_some],
    List.set_cons_zero, List.map_cons, getD_set_eq' _ _ _ _ hrow, colFrom]

theorem gqrStepFull_reflector_degenerate (sqrt : K → K) (cIdx : List ℕ) (cs nf j : ℕ)
    (s : GQRState K)
    (h : ¬ 0 < (f_region cIdx (dlensOf sqrt s.R nf j) s.p j cs).getD
      (argmaxIdx (f_region cIdx (dlensOf sqrt s.R nf j) s.p j cs)) 0) :
    (gqrStepFull sqrt cIdx cs nf j s).2 =
      colFrom
        (swapCols
          (writeEntry s.R j
            (argmaxIdx (f_region cIdx (dlensOf sqrt s.R nf j) s.p j cs) + j) (sqrt 2))
          j (argmaxIdx (f_region cIdx (dlensOf sqrt s.R nf j) s.p j cs) + j))
        j (argmaxIdx (f_region cIdx (dlensOf sqrt s.R nf j) s.p j cs) + j) := by
  simp only [gqrStepFull]
  rw [if_neg h]

/-- C6 (counterexample): on the basis `[[0,1],[0,0]]` with
`constrained_indices = [1]`, `n_constrained_sensors = 1`, at iteration `0` the
selected masked norm is `0` (the constrained column is zero), yet the
reflector actually applied is `[√2, 1]`, not the fixed fallback vector
`[√2, 0]`: in the degenerate branch `u` is a view of the pivot column, whose
trailing entries survive the write `u[0] = np.sqrt(2)`. -/
theorem C6_counterexample :
    gqrSelNormAt Real.sqrt [1] 1 [[(0 : ℝ), 1], [0, 0]] 0 = 0 ∧
    gqrReflectorAt Real.sqrt [1] 1 [[(0 : ℝ), 1], [0, 0]] 0 = [Real.sqrt 2, 1] ∧
    [Real.sqrt 2, (1 : ℝ)] ≠ [Real.sqrt 2, 0] := by
  refine ⟨?_, ?_, by simp⟩
  · norm_num [gqrSelNormAt, gqrPivAt, gqrMaskedAt, gqrDlensAt, gqrState, dlensOf, colSq,
      colFrom, f_region, argmaxIdx, argmaxAux, transposeConj, List.range_succ,
      Real.sqrt_one, Real.sqrt_zero]
  · norm_num [gqrReflectorAt, gqrStepFull, gqrState, dlensOf, colSq, colFrom, f_region,
      argmaxIdx, argmaxAux, swapList, swapCols, writeEntry, zeroBelow, applyReflector,
      dotCol, npSign, transposeConj, List.range_succ, Real.sqrt_one, Real.sqrt_zero]

/-- C6 (amended): at an iteration `j < k` with selected masked norm exactly
zero, the pivot is the leading remaining candidate (`i_piv = 0`, because all
masked norms are then zero) and the reflector used is the leading remaining
column of the working matrix with its head overwritten by `√2`; it equals the
fixed vector `(√2, 0, …, 0)` exactly when that column is zero below the
leading entry (in particular whenever the degenerate branch is reached with a
genuinely zero pivot column, as in the unconstrained baseline).  The
algorithm proceeds without aborting in either case. -/
theorem C6_degenerate_reflector (cIdx : List ℕ) (cs : ℕ) (basis : List (List ℝ)) (j : ℕ)
    (hj : j < min (basis.headD []).length basis.length)
    (h0 : gqrSelNormAt Real.sqrt cIdx cs basis j = 0) :
    gqrPivAt Real.sqrt cIdx cs basis j = 0 ∧
    gqrReflectorAt Real.sqrt cIdx cs basis j =
      Real.sqrt 2 :: colFrom (gqrState Real.sqrt cIdx cs basis j).R (j + 1) j ∧
    ((∀ x ∈ colFrom (gqrState Real.sqrt cIdx cs basis j).R (j + 1) j, x = 0) →
      gqrReflectorAt Real.sqrt cIdx cs basis j =
        Real.sqrt 2 :: List.replicate ((basis.headD []).length - (j + 1)) 0) := by
  have hlen := length_gqrMaskedAt Real.sqrt cIdx cs basis j
  have hne : gqrMaskedAt Real.sqrt cIdx cs basis j ≠ [] :=
    List.length_pos.mp (by omega)
  have hnn : ∀ x ∈ gqrMaskedAt Real.sqrt cIdx cs basis j, 0 ≤ x := by
    intro x hx
    rcases mem_f_region_imp _ _ _ _ _ x hx with hx0 | hd
    · rw [hx0]
    · rw [gqrDlensAt, dlensOf] at hd
      obtain ⟨c, _, he⟩ := List.mem_map.mp hd
      rw [← he]
      exact Real.sqrt_nonneg _
  have hspec := argmaxIdx_spec (gqrMaskedAt Real.sqrt cIdx cs basis j) hne
  have h0' : (gqrMaskedAt Real.sqrt cIdx cs basis j).getD
      (argmaxIdx (gqrMaskedAt Real.sqrt cIdx cs basis j)) 0 = 0 := h0
  have hall : ∀ x ∈ gqrMaskedAt Real.sqrt cIdx cs basis j, x = 0 := by
    intro x hx
    obtain ⟨n, hn, he⟩ := List.mem_iff_getElem.mp hx
    have hgd : (gqrMaskedAt Real.sqrt cIdx cs basis j).getD n 0 = x := by
      rw [List.getD_eq_getElem?_getD, List.getElem?_eq_getElem hn, Option.getD_some, he]
    have hle := hspec.2.1 n hn
    rw [hgd, h0'] at hle
    exact le_antisymm hle (hnn x hx)
  have hpiv : gqrPivAt Real.sqrt cIdx cs basis j = 0 := argmaxIdx_of_all_zero _ hall
  have hbr : ¬ 0 < gqrSelNormAt Real.sqrt cIdx cs basis j := by
    rw [h0]
    exact lt_irrefl 0
  have hrefl := gqrStepFull_reflector_degenerate Real.sqrt cIdx cs basis.length j
    (gqrState Real.sqrt cIdx cs basis j) hbr
  rw [show argmaxIdx (f_region cIdx
      (dlensOf Real.sqrt (gqrState Real.sqrt cIdx cs basis j).R basis.length j)
      (gqrState Real.sqrt cIdx cs basis j).p j cs) = 0 from hpiv] at hrefl
  simp only [Nat.zero_add] at hrefl
  rw [swapCols_self] at hrefl
  have hRlen := gqrState_R_length Real.sqrt cIdx cs basis j
  have hjR : j < (gqrState Real.sqrt cIdx cs basis j).R.length := by omega
  have hjrow : j < ((gqrState Real.sqrt cIdx cs basis j).R.getD j []).length := by
    rw [gqrState_rows_length Real.sqrt cIdx cs basis j _ (getD_mem_of_lt _ j [] hjR)]
    omega
  rw [colFrom_writeEntry_self _ _ _ hjR hjrow] at hrefl
  refine ⟨hpiv, hrefl, ?_⟩
  intro hallz
  rw [gqrReflectorAt, hrefl]
  have hclen : (colFrom (gqrState Real.sqrt cIdx cs basis j).R (j + 1) j).length =
      (basis.headD []).length - (j + 1) := by
    rw [colFrom, List.length_map, List.length_drop, hRlen]
  rw [List.eq_replicate_iff.mpr ⟨hclen, hallz⟩]

theorem C6_witness :
    0 < min (([[(0 : ℝ), 1], [0, 0]].headD []).length) ([[(0 : ℝ), 1], [0, 0]].length) ∧
    gqrSelNormAt Real.sqrt [1] 1 [[(0 : ℝ), 1], [0, 0]] 0 = 0 ∧
    gqrPivAt Real.sqrt [1] 1 [[(0 : ℝ), 1], [0, 0]] 0 = 0 := by
  have hj : 0 < min (([[(0 : ℝ), 1], [0, 0]].headD []).length)
      ([[(0 : ℝ), 1], [0, 0]].length) := by decide
  have h0 : gqrSelNormAt Real.sqrt [1] 1 [[(0 : ℝ), 1], [0, 0]] 0 = 0 := by
    norm_num [gqrSelNormAt, gqrPivAt, gqrMaskedAt, gqrDlensAt, gqrState, dlensOf, colSq,
      colFrom, f_region, argmaxIdx, argmaxAux, transposeConj, List.range_succ,
      Real.sqrt_one, Real.sqrt_zero]
  exact ⟨hj, h0, (C6_degenerate_reflector [1] 1 [[(0 : ℝ), 1], [0, 0]] 0 hj h0).1⟩

/-- C9: if at a forced-inclusion iteration (`j < n_constrained_sensors`)
every remaining candidate whose original index lies in the constrained region
has zero norm, then the masked vector is all-zero: the pivot is the first
remaining candidate (`i_piv = 0`, deterministic index order), the selected
norm is `0` so the degenerate fallback-reflector branch is taken, and the
permutation is unchanged by that iteration. -/
theorem C9_forced_phase_degenerate (sqrt : K → K) (cIdx : List ℕ) (cs : ℕ)
    (basis : List (List K)) (j : ℕ) (hj : j < cs)
    (hz : ∀ i, (gqrState sqrt cIdx cs basis j).p.getD (j + i) 0 ∈ cIdx →
      (gqrDlensAt sqrt cIdx cs basis j).getD i 0 = 0) :
    gqrPivAt sqrt cIdx cs basis j = 0 ∧
    gqrSelNormAt sqrt cIdx cs basis j = 0 ∧
    (gqrState sqrt cIdx cs basis (j + 1)).p = (gqrState sqrt cIdx cs basis j).p := by
  have hplen := gqrState_p_length sqrt cIdx cs basis j
  have hall : ∀ x ∈ gqrMaskedAt sqrt cIdx cs basis j, x = 0 := by
    have hidx : ∀ i, i < (gqrMaskedAt sqrt cIdx cs basis j).length →
        (gqrMaskedAt sqrt cIdx cs basis j).getD i 0 = 0 := by
      intro i hi
      have hlen := length_gqrMaskedAt sqrt cIdx cs basis j
      have hdl : i < (gqrDlensAt sqrt cIdx cs basis j).length := by
        rw [gqrDlensAt, length_dlensOf]; omega
      have hpv : i < (gqrState sqrt cIdx cs basis j).p.length - j := by omega
      rw [gqrMaskedAt, f_region_getD_forced _ _ _ _ _ _ hj hdl hpv]
      split
      · exact hz i (by assumption)
      · rfl
    intro x hx
    obtain ⟨n, hn, he⟩ := List.mem_iff_getElem.mp hx
    have hgd : (gqrMaskedAt sqrt cIdx cs basis j).getD n 0 = x := by
      rw [List.getD_eq_getElem?_getD, List.getElem?_eq_getElem hn, Option.getD_some, he]
    rw [← hgd]
    exact hidx n hn
  have h0 : gqrPivAt sqrt cIdx cs basis j = 0 := argmaxIdx_of_all_zero _ hall
  refine ⟨h0, ?_, ?_⟩
  · rw [gqrSelNormAt]
    exact getD_zero_of_all_zero _ hall _
  · rw [gqrState_succ_p, h0, Nat.zero_add, swapList_self]

theorem C9_witness :
    (0 : ℕ) < 1 ∧
    (∀ i, (gqrState Real.sqrt [1] 1 [[(0 : ℝ), 1], [0, 0]] 0).p.getD (0 + i) 0 ∈
        ([1] : List ℕ) →
      (gqrDlensAt Real.sqrt [1] 1 [[(0 : ℝ), 1], [0, 0]] 0).getD i 0 = 0) ∧
    gqrPivAt Real.sqrt [1] 1 [[(0 : ℝ), 1], [0, 0]] 0 = 0 ∧
    gqrSelNormAt Real.sqrt [1] 1 [[(0 : ℝ), 1], [0, 0]] 0 = 0 := by
  have hz : ∀ i, (gqrState Real.sqrt [1] 1 [[(0 : ℝ), 1], [0, 0]] 0).p.getD (0 + i) 0 ∈
      ([1] : List ℕ) →
      (gqrDlensAt Real.sqrt [1] 1 [[(0 : ℝ), 1], [0, 0]] 0).getD i 0 = 0 := by
    intro i hi
    match i with
    | 0 => simp [gqrState, transposeConj, List.range_succ] at hi
    | 1 =>
      norm_num [gqrDlensAt, gqrState, dlensOf, colSq, transposeConj, List.range_succ,
        Real.sqrt_zero]
    | n + 2 =>
      rw [gqrState] at hi
      rw [List.getD_eq_default] at hi
      · simp at hi
      · rw [List.length_range, show [[(0 : ℝ), 1], [0, 0]].length = 2 from rfl]
        omega
  have hres := C9_forced_phase_degenerate Real.sqrt [1] 1 [[(0 : ℝ), 1], [0, 0]] 0
    (by norm_num) hz
  exact ⟨by norm_num, hz, hres.1, hres.2.1⟩

theorem C10_witness :
    (¬ (2 : ℤ) > (([[(1 : ℝ)], [0], [0]].length : ℕ) : ℤ) -
        (([] : List ℕ).length : ℤ) + ((0 : ℕ) : ℤ)) ∧
    ((2 : ℤ) > ((([[(1 : ℝ)], [0], [0]].headD []).length : ℕ) : ℤ) + ((0 : ℕ) : ℤ)) ∧
    GQRfit Real.sqrt [] 2 0 [[(1 : ℝ)], [0], [0]] =
      Except.error GQRErr.nameErrorNSensors :=
  ⟨by norm_num, by norm_num,
    C10_name_error Real.sqrt [] 2 0 _ (by norm_num) (by norm_num)⟩

end GQRSpec
